import Mathlib

/-!
Verification of `scripts/daily_changelog.py`: a daily changelog digest job
that collects yesterday's commits from a git branch and publishes them as a
Notion page.  Text is modelled as `List Char`; each Python function of the
script is embedded as a computable Lean definition; the external world
(subprocess results, HTTP responses) is modelled as explicit oracles.
-/

namespace DailyChangelog

/-- Whether the pattern list is an initial segment of the second list
(models Python `str.startswith`). -/
def startsWithSeq : List Char → List Char → Bool
  | [], _ => true
  | _ :: _, [] => false
  | a :: as, b :: bs => a == b && startsWithSeq as bs

/-- Line-boundary characters recognised by Python `str.splitlines`. -/
def isLineBreak (c : Char) : Bool :=
  c = '\n' || c = '\r' || c = '\x0b' || c = '\x0c' ||
  c = '\x1c' || c = '\x1d' || c = '\x1e' || c = '\x85' ||
  c = Char.ofNat 0x2028 || c = Char.ofNat 0x2029

/-- Accumulator worker for `splitlines`; `acc` holds the current line
reversed. -/
def splitlinesAux : List Char → List Char → List (List Char)
  | acc, [] => if acc.isEmpty then [] else [acc.reverse]
  | acc, '\r' :: '\n' :: rest => acc.reverse :: splitlinesAux [] rest
  | acc, c :: rest =>
    if isLineBreak c then acc.reverse :: splitlinesAux [] rest
    else splitlinesAux (c :: acc) rest

/-- Python `str.splitlines`: splits at line boundaries (with `\r\n`
counting as a single boundary) and produces no trailing empty line. -/
def splitlines (l : List Char) : List (List Char) :=
  splitlinesAux [] l

/-- Python `"\n".join(lines)`. -/
def joinNL : List (List Char) → List Char
  | [] => []
  | [l] => l
  | l :: ls => l ++ '\n' :: joinNL ls

/-- Python `s.split(sep)` (no maxsplit) for a one-character separator. -/
def splitOnCharFull (sep : Char) : List Char → List (List Char)
  | [] => [[]]
  | c :: cs =>
    let r := splitOnCharFull sep cs
    if c = sep then [] :: r
    else
      match r with
      | [] => [[c]]
      | h :: t => (c :: h) :: t

/-- Python `s.split(sep, maxsplit)` for a one-character separator: at most
`maxsplit` splits are performed, the remainder staying in the last field. -/
def splitOnCharCapped (sep : Char) : Nat → List Char → List (List Char)
  | _, [] => [[]]
  | 0, l => [l]
  | n + 1, c :: cs =>
    if c = sep then [] :: splitOnCharCapped sep n cs
    else
      match splitOnCharCapped sep (n + 1) cs with
      | [] => [[c]]
      | h :: t => (c :: h) :: t

/-- Characters stripped by Python `str.strip()` (Unicode whitespace). -/
def isPySpace (c : Char) : Bool :=
  c = ' ' || c = '\t' || c = '\n' || c = '\r' || c = '\x0b' || c = '\x0c' ||
  c = '\x1c' || c = '\x1d' || c = '\x1e' || c = '\x1f' || c = '\x85' ||
  c = '\xa0' || c = Char.ofNat 0x1680 ||
  (Char.ofNat 0x2000 ≤ c && c ≤ Char.ofNat 0x200a) ||
  c = Char.ofNat 0x2028 || c = Char.ofNat 0x2029 || c = Char.ofNat 0x202f ||
  c = Char.ofNat 0x205f || c = Char.ofNat 0x3000

/-- Python `str.strip()`: removes whitespace from both ends. -/
def pyStrip (l : List Char) : List Char :=
  ((l.dropWhile isPySpace).reverse.dropWhile isPySpace).reverse

/-- Embeds `chunk_text(text, size)` from the script:
`[text[i:i+size] for i in range(0, len(text), size)] if text else []`.
The `size = 0` branch is unreachable at the script's call sites (Python
`range` would reject a zero step); returning `[]` keeps the function total. -/
def chunk_text (text : List Char) (size : Nat) : List (List Char) :=
  if text.isEmpty then []
  else (List.range ((text.length + size - 1) / size)).map
    (fun i => (text.drop (i * size)).take size)

/-- A parsed commit record, the dictionary built by `collect_commits`:
`{"short": short, "author": author, "date": date_iso, "subject": subject,
"sha": full}`. -/
structure Commit where
  short : List Char
  author : List Char
  date : List Char
  subject : List Char
  sha : List Char
deriving DecidableEq

/-- A parsed per-file change record, the dictionary built by
`collect_numstat`: `{"path": path, "added": add, "deleted": delete}`. -/
structure FileChange where
  path : List Char
  added : List Char
  deleted : List Char
deriving DecidableEq

/-- The parsing loop of `collect_commits`, applied to the (stripped) stdout
of the `git log` command:
for each line, `parts = line.split("|", 4)`; lines with `len(parts) != 5`
are skipped, the rest appended as commit records. -/
def collect_commits_parse (out : List Char) : List Commit :=
  if out.isEmpty then []
  else
    (splitlines out).foldl (fun commits line =>
      match splitOnCharCapped '|' 4 line with
      | [short, author, dateIso, subject, full] =>
        commits ++ [⟨short, author, dateIso, subject, full⟩]
      | _ => commits) []

/-- The parsing loop of `collect_numstat`, applied to the (stripped) stdout
of `git show --numstat --format=`: for each line, `cols = line.split("\t")`;
only lines with exactly three columns produce a record
`{"path": path, "added": add, "deleted": delete}`. -/
def collect_numstat_parse (out : List Char) : List FileChange :=
  (splitlines out).foldl (fun files line =>
    match splitOnCharFull '\t' line with
    | [add, delete, path] => files ++ [⟨path, add, delete⟩]
    | _ => files) []

/-- The filtering loop of `collect_patch`, applied to the (stripped) stdout
of `git show --format= --unified=0 --no-color`: keeps `@@` hunk-header
lines and `+`/`-` lines other than the `+++`/`---` file headers. -/
def collect_patch_keep (out : List Char) : List (List Char) :=
  (splitlines out).foldl (fun keep line =>
    if startsWithSeq ['@', '@'] line then keep ++ [line]
    else if startsWithSeq ['+'] line || startsWithSeq ['-'] line then
      if startsWithSeq ['+', '+', '+'] line || startsWithSeq ['-', '-', '-'] line then
        keep
      else keep ++ [line]
    else keep) []

/-- Embeds `collect_patch`: the kept lines joined with `"\n"`. -/
def collect_patch (out : List Char) : List Char :=
  joinNL (collect_patch_keep out)

/-- A line is a hunk header when it starts with `@@`. -/
def isHunkHeaderLine (line : List Char) : Bool :=
  startsWithSeq ['@', '@'] line

/-- A line is a changed (added/removed) line when it starts with `+` or `-`
but is not a `+++`/`---` file-header line. -/
def isChangedLine (line : List Char) : Bool :=
  (startsWithSeq ['+'] line || startsWithSeq ['-'] line) &&
  !(startsWithSeq ['+', '+', '+'] line || startsWithSeq ['-', '-', '-'] line)

/-- Specification form of one `collect_commits` loop step: the record a
single log line yields, if any. -/
def commitRowSpec (line : List Char) : Option Commit :=
  match splitOnCharCapped '|' 4 line with
  | [short, author, dateIso, subject, full] =>
    some ⟨short, author, dateIso, subject, full⟩
  | _ => none

/-- Specification form of one `collect_numstat` loop step: the record a
single numstat line yields, if any. -/
def numstatRowSpec (line : List Char) : Option FileChange :=
  match splitOnCharFull '\t' line with
  | [add, delete, path] => some ⟨path, add, delete⟩
  | _ => none

/-- Append the row produced by one loop iteration, if any (the common shape
of the three parsing loops). -/
def appendRow {β : Type} (a : List β) (r : Option β) : List β :=
  match r with
  | some b => a ++ [b]
  | none => a

/-- Model of a civil date-time in the script's fixed timezone
(`pytz.timezone("Asia/Tokyo")`, a constant UTC+9 offset with no daylight
saving): `day` is the civil day index and `usec` the microseconds elapsed
since that day's midnight. -/
structure JSTTime where
  day : Int
  usec : Nat
deriving DecidableEq

/-- Microseconds in one day. -/
def usecPerDay : Nat := 86400000000

/-- Absolute time of an instant, in microseconds (the fixed offset cancels
when comparing two instants, so it is omitted). -/
def toAbsUsec (t : JSTTime) : Int :=
  t.day * (usecPerDay : Int) + (t.usec : Int)

/-- Embeds `jst_midnight_range_of_yesterday`: `today0` replaces the hour,
minute, second and microsecond of `now` (already in JST) by zero, and
`yday0 = today0 - timedelta(days=1)`; returns `(yday0, today0)`. -/
def jst_midnight_range_of_yesterday (now : JSTTime) : JSTTime × JSTTime :=
  let today0 : JSTTime := ⟨now.day, 0⟩
  let yday0 : JSTTime := ⟨now.day - 1, 0⟩
  (yday0, today0)

/-- Membership of an instant in a half-open window `[s, e)`. -/
def inWindow (s e t : JSTTime) : Bool :=
  decide (toAbsUsec s ≤ toAbsUsec t) && decide (toAbsUsec t < toAbsUsec e)

/-- Value attached to a Notion page property in the creation payload. -/
inductive PropValue where
  | titleV (s : List Char)
  | dateV (s : List Char)
  | richTextV (s : List Char)
  | numberV (n : Nat)
deriving DecidableEq

/-- An observable external action of the script: a subprocess invocation
of the version-control tool (with its command line), an HTTP GET, or the
page-creation HTTP POST (with the properties and body blocks it sends). -/
inductive Effect where
  | git (cmd : List Char)
  | httpGet (url : List Char)
  | httpPost (url : List Char) (properties : List (List Char × PropValue))
      (children : List (List Char))
deriving DecidableEq

/-- Oracle for the `run` helper: for a command line, `some stdout` models a
zero exit status (with `stdout` already stripped, as `run` strips it) and
`none` models a non-zero exit status, on which `run` raises
`RuntimeError`. -/
structure GitWorld where
  run : List Char → Option (List Char)

/-- Command text of `git rev-parse --verify {r}`. -/
def gitCmdVerify (r : List Char) : List Char :=
  "git rev-parse --verify ".toList ++ r

/-- Command text of the `origin/HEAD` symbolic-ref query in step 2 of
`resolve_branch`. -/
def gitCmdSymbolicRef : List Char :=
  "git symbolic-ref --short refs/remotes/origin/HEAD".toList

/-- Command text of the current-branch query in step 3 of
`resolve_branch`. -/
def gitCmdAbbrevRef : List Char :=
  "git rev-parse --abbrev-ref HEAD".toList

/-- The string `origin/{b}`. -/
def originSlash (b : List Char) : List Char :=
  "origin/".toList ++ b

/-- Step 3 of `resolve_branch`: query the current branch; if it is not the
detached-head sentinel `HEAD`, prefer `origin/{cur}` when that
remote-tracking ref verifies, else fall back to the bare local name when it
verifies; any remaining failure falls through to the final fatal error
(modelled as `none`).  The first component is the trace of subprocess
invocations. -/
def resolve_step3 (w : GitWorld) : List Effect × Option (List Char) :=
  match w.run gitCmdAbbrevRef with
  | none => ([Effect.git gitCmdAbbrevRef], none)
  | some cur =>
    if cur = "HEAD".toList then ([Effect.git gitCmdAbbrevRef], none)
    else
      match w.run (gitCmdVerify (originSlash cur)) with
      | some _ =>
        ([Effect.git gitCmdAbbrevRef, Effect.git (gitCmdVerify (originSlash cur))],
         some (originSlash cur))
      | none =>
        match w.run (gitCmdVerify cur) with
        | some _ =>
          ([Effect.git gitCmdAbbrevRef,
            Effect.git (gitCmdVerify (originSlash cur)),
            Effect.git (gitCmdVerify cur)], some cur)
        | none =>
          ([Effect.git gitCmdAbbrevRef,
            Effect.git (gitCmdVerify (originSlash cur)),
            Effect.git (gitCmdVerify cur)], none)

/-- Step 2 of `resolve_branch` after the `origin/HEAD` query, given that
query's result: when the output starts with `origin/` and verifies, return
it; on any failure fall through to step 3. -/
def resolve_step2_tail (w : GitWorld) :
    Option (List Char) → List Effect × Option (List Char)
  | none => resolve_step3 w
  | some head =>
    if startsWithSeq "origin/".toList head then
      match w.run (gitCmdVerify head) with
      | some _ => ([Effect.git (gitCmdVerify head)], some head)
      | none =>
        let (t, r) := resolve_step3 w
        (Effect.git (gitCmdVerify head) :: t, r)
    else resolve_step3 w

/-- Step 2 of `resolve_branch`: query `origin/HEAD` (this subprocess runs
unconditionally), then proceed on its result. -/
def resolve_step2 (w : GitWorld) : List Effect × Option (List Char) :=
  let (t, r) := resolve_step2_tail w (w.run gitCmdSymbolicRef)
  (Effect.git gitCmdSymbolicRef :: t, r)

/-- Embeds `resolve_branch`.  `target` is the (already stripped)
`TARGET_BRANCH` environment value; step 1 tries `origin/{target}` when
`target` is non-empty; the result is `none` exactly when the Python
function raises its final fatal `RuntimeError`. -/
def resolve_branch (target : List Char) (w : GitWorld) :
    List Effect × Option (List Char) :=
  if target.isEmpty then resolve_step2 w
  else
    match w.run (gitCmdVerify (originSlash target)) with
    | some _ =>
      ([Effect.git (gitCmdVerify (originSlash target))],
       some (originSlash target))
    | none =>
      let (t, r) := resolve_step2 w
      (Effect.git (gitCmdVerify (originSlash target)) :: t, r)

/-- Command text of `git show --numstat --format= {sha}`. -/
def gitCmdNumstat (sha : List Char) : List Char :=
  "git show --numstat --format= ".toList ++ sha

/-- Command text of `git show --format= --unified=0 --no-color {sha}`. -/
def gitCmdPatch (sha : List Char) : List Char :=
  "git show --format= --unified=0 --no-color ".toList ++ sha

/-- Command text of the `git log` invocation of `collect_commits`. -/
def gitCmdLog (branch sinceIso untilIso : List Char) : List Char :=
  "git log ".toList ++ branch ++ " --no-merges --since=\"".toList ++
  sinceIso ++ "\" --until=\"".toList ++ untilIso ++
  "\" --pretty=format:%h|%an|%ad|%s|%H --date=iso-strict".toList

/-- Message of the `RuntimeError` raised by `run` on a non-zero exit (the
captured stderr text is omitted from the model; no claim concerns it). -/
def cmdFailedMsg (cmd : List Char) : List Char :=
  "Command failed: ".toList ++ cmd

/-- Embeds `collect_commits` against the oracle world: one `git log`
invocation, whose failure propagates and whose output is parsed by
`collect_commits_parse`. -/
def collect_commits_t (w : GitWorld) (branch sinceIso untilIso : List Char) :
    List Effect × Except (List Char) (List Commit) :=
  match w.run (gitCmdLog branch sinceIso untilIso) with
  | none =>
    ([Effect.git (gitCmdLog branch sinceIso untilIso)],
     Except.error (cmdFailedMsg (gitCmdLog branch sinceIso untilIso)))
  | some out =>
    ([Effect.git (gitCmdLog branch sinceIso untilIso)],
     Except.ok (collect_commits_parse out))

/-- Embeds `collect_numstat` against the oracle world. -/
def collect_numstat_t (w : GitWorld) (sha : List Char) :
    List Effect × Except (List Char) (List FileChange) :=
  match w.run (gitCmdNumstat sha) with
  | none =>
    ([Effect.git (gitCmdNumstat sha)],
     Except.error (cmdFailedMsg (gitCmdNumstat sha)))
  | some out =>
    ([Effect.git (gitCmdNumstat sha)], Except.ok (collect_numstat_parse out))

/-- Embeds `collect_patch` against the oracle world. -/
def collect_patch_t (w : GitWorld) (sha : List Char) :
    List Effect × Except (List Char) (List Char) :=
  match w.run (gitCmdPatch sha) with
  | none =>
    ([Effect.git (gitCmdPatch sha)],
     Except.error (cmdFailedMsg (gitCmdPatch sha)))
  | some out =>
    ([Effect.git (gitCmdPatch sha)], Except.ok (collect_patch out))

/-- The per-file line `f"  {path} (+{added} / -{deleted})"` of
`build_markdown_summary`. -/
def summaryFileLine (f : FileChange) : List Char :=
  "  ".toList ++ f.path ++ " (+".toList ++ f.added ++
  " / -".toList ++ f.deleted ++ ")".toList

/-- The lines `build_markdown_summary` appends for one commit, given its
numstat records and its patch text: a file header plus one line per file
(or the fixed no-files line), an optional blank line plus the patch when
the patch is non-empty, and the trailing separator blank line. -/
def summaryCommitLines (files : List FileChange) (patch : List Char) :
    List (List Char) :=
  (if files.isEmpty then ["変更ファイル（+/-）: なし".toList]
   else "変更ファイル（+/-）:".toList :: files.map summaryFileLine) ++
  (if patch.isEmpty then []
   else if files.isEmpty then [patch] else [[], patch]) ++
  [[]]

/-- The loop of `build_markdown_summary`: accumulates the lines for each
commit, fetching its numstat and patch; a failing subprocess invocation
aborts the loop with the corresponding error. -/
def summary_lines_t (w : GitWorld) :
    List Commit → List Effect × Except (List Char) (List (List Char))
  | [] => ([], Except.ok [])
  | c :: rest =>
    match collect_numstat_t w c.sha with
    | (t1, Except.error e) => (t1, Except.error e)
    | (t1, Except.ok files) =>
      match collect_patch_t w c.sha with
      | (t2, Except.error e) => (t1 ++ t2, Except.error e)
      | (t2, Except.ok patch) =>
        let (t3, r3) := summary_lines_t w rest
        (t1 ++ t2 ++ t3,
         r3.map (fun ls => summaryCommitLines files patch ++ ls))

/-- The fixed body `build_markdown_summary` returns when the commit list
is empty. -/
def noCommitsMsg : List Char :=
  "前日分のコミットはありませんでした。".toList

/-- Embeds `build_markdown_summary`: the fixed message for an empty commit
list, otherwise the accumulated lines joined with newlines and stripped. -/
def build_markdown_summary_t (w : GitWorld) (commits : List Commit) :
    List Effect × Except (List Char) (List Char) :=
  if commits.isEmpty then ([], Except.ok noCommitsMsg)
  else
    let (t, r) := summary_lines_t w commits
    (t, r.map (fun ls => pyStrip (joinNL ls)))

/-- Oracle for the Notion API: `schema` is the property table returned by
`GET /databases/{id}` as pairs (property name, property type), `none`
modelling a non-success status; `postOk` tells whether `POST /pages`
returns a success status. -/
structure NotionWorld where
  schema : Option (List (List Char × List Char))
  postOk : Bool

/-- Python `str.lower()` (ASCII case folding suffices for the candidate
names involved; characters outside the ASCII range are unchanged by both
functions on these inputs). -/
def lowerChars (s : List Char) : List Char :=
  s.map Char.toLower

/-- Assignment `m[k] = v` on a Python dict modelled as an association list
with unique keys: replaces the value in place at the first occurrence of
the key, appends otherwise (insertion order is preserved, as in a Python
dict). -/
def dictSet {α : Type} : List (List Char × α) → List Char → α →
    List (List Char × α)
  | [], k, v => [(k, v)]
  | p :: ps, k, v =>
    if p.1 = k then (k, v) :: ps else p :: dictSet ps k v

/-- The dict comprehension `{k.lower(): k for k in props}` of `find_prop`:
later entries overwrite earlier ones on a lowercase collision. -/
def lowerMapOf (props : List (List Char × List Char)) :
    List (List Char × List Char) :=
  props.foldl (fun m p => dictSet m (lowerChars p.1) p.1) []

/-- Python `cand in props` for the schema's property dict. -/
def hasKey (props : List (List Char × List Char)) (k : List Char) : Bool :=
  props.any (fun p => decide (p.1 = k))

/-- Python `m.get(k)` on an association list with unique keys. -/
def lookupDict : List (List Char × List Char) → List Char → Option (List Char)
  | [], _ => none
  | p :: ps, k => if p.1 = k then some p.2 else lookupDict ps k

/-- First loop of `find_prop`: the first candidate that is literally a key
of the schema. -/
def find_prop_exact (props : List (List Char × List Char)) :
    List (List Char) → Option (List Char)
  | [] => none
  | c :: cs => if hasKey props c then some c else find_prop_exact props cs

/-- Second loop of `find_prop`: the first candidate whose lowercase form is
a key of the lowered map, skipping falsy (empty) results as Python's
`if key:` does. -/
def find_prop_lower (m : List (List Char × List Char)) :
    List (List Char) → Option (List Char)
  | [] => none
  | c :: cs =>
    match lookupDict m (lowerChars c) with
    | some k => if k.isEmpty then find_prop_lower m cs else some k
    | none => find_prop_lower m cs

/-- Embeds the inner helper `find_prop` of `create_notion_page`: exact
match first, then case-insensitive match, else the empty string. -/
def find_prop (props : List (List Char × List Char))
    (cands : List (List Char)) : List Char :=
  match find_prop_exact props cands with
  | some c => c
  | none =>
    match find_prop_lower (lowerMapOf props) cands with
    | some k => k
    | none => []

/-- Embeds `find_title_prop_name`: the first property whose type is
`title`; `none` models the fatal `RuntimeError` when there is none. -/
def find_title_prop_name (props : List (List Char × List Char)) :
    Option (List Char) :=
  (props.find? (fun p => decide (p.2 = "title".toList))).map (fun p => p.1)

/-- The candidate names for the date column. -/
def dateCands : List (List Char) :=
  ["Date".toList, "日付".toList, "date".toList]

/-- The candidate names for the repository column. -/
def repoCands : List (List Char) :=
  ["Repo".toList, "Repository".toList, "リポジトリ".toList, "repo".toList]

/-- The candidate names for the commit-count column. -/
def countCands : List (List Char) :=
  ["Commit Count".toList, "Commits".toList, "コミット数".toList,
   "commit count".toList, "commits".toList]

/-- One conditional assignment `if key: properties[key] = value` of
`create_notion_page` (the guard is Python's falsiness of the empty
string). -/
def condSet (m : List (List Char × PropValue)) (k : List Char)
    (v : PropValue) : List (List Char × PropValue) :=
  if k.isEmpty then m else dictSet m k v

/-- The `properties` dict of `create_notion_page`, given the detected
title column and the three `find_prop` results: the title entry, then the
three conditional optional assignments in source order. -/
def props_chain (titleProp dateProp repoProp countProp : List Char)
    (title dateStr repo : List Char) (count : Nat) :
    List (List Char × PropValue) :=
  condSet
    (condSet
      (condSet [(titleProp, PropValue.titleV title)]
        dateProp (PropValue.dateV dateStr))
      repoProp (PropValue.richTextV repo))
    countProp (PropValue.numberV count)

/-- The `properties` dict built by `create_notion_page`: the title entry,
then each optional entry assigned only when its `find_prop` lookup
returned a non-empty name; `none` when the schema has no title column. -/
def notion_properties (schema : List (List Char × List Char))
    (title dateStr repo : List Char) (count : Nat) :
    Option (List (List Char × PropValue)) :=
  match find_title_prop_name schema with
  | none => none
  | some titleProp =>
    some (props_chain titleProp (find_prop schema dateCands)
      (find_prop schema repoCands) (find_prop schema countCands)
      title dateStr repo count)

/-- URL of the schema introspection request. -/
def notionDbUrl (dbid : List Char) : List Char :=
  "https://api.notion.com/v1/databases/".toList ++ dbid

/-- URL of the page-creation request. -/
def notionPagesUrl : List Char :=
  "https://api.notion.com/v1/pages".toList

/-- Embeds `create_notion_page` against the oracle Notion world: fetch the
schema (fatal on non-success), build the properties (fatal when no title
column exists), chunk the body into 1800-character code blocks, and POST
the page (fatal on non-success).  The HTTP status code and response text
interpolated into the Python error messages are omitted from the model; no
claim concerns them. -/
def create_notion_page_t (nw : NotionWorld)
    (dbid title dateStr repo : List Char) (count : Nat)
    (markdown : List Char) : List Effect × Except (List Char) Unit :=
  match nw.schema with
  | none =>
    ([Effect.httpGet (notionDbUrl dbid)],
     Except.error "Failed to fetch DB schema".toList)
  | some schema =>
    match notion_properties schema title dateStr repo count with
    | none =>
      ([Effect.httpGet (notionDbUrl dbid)],
       Except.error "No title property found in the Notion database.".toList)
    | some props =>
      if nw.postOk then
        ([Effect.httpGet (notionDbUrl dbid),
          Effect.httpPost notionPagesUrl props (chunk_text markdown 1800)],
         Except.ok ())
      else
        ([Effect.httpGet (notionDbUrl dbid),
          Effect.httpPost notionPagesUrl props (chunk_text markdown 1800)],
         Except.error "Notion create page failed".toList)

/-- The tail of `main` after commit collection: render the summary and
create the page, passing `len(commits)` as the commit count; on success the
run's reported value is that same count. -/
def main_publish (w : GitWorld) (nw : NotionWorld)
    (dbid title dateStr repo : List Char) (commits : List Commit) :
    List Effect × Except (List Char) Nat :=
  match build_markdown_summary_t w commits with
  | (t3, Except.error e) => (t3, Except.error e)
  | (t3, Except.ok md) =>
    match create_notion_page_t nw dbid title dateStr repo commits.length md with
    | (t4, r4) => (t3 ++ t4, r4.map (fun _ => commits.length))

/-- A character matched by the class `[0-9a-fA-F-]`. -/
def isDbIdChar (c : Char) : Bool :=
  ('0' ≤ c && c ≤ '9') || ('a' ≤ c && c ≤ 'f') ||
  ('A' ≤ c && c ≤ 'F') || c = '-'

/-- Embeds `re.match(r'^[0-9a-fA-F-]{32,36}$', s)`: Python's `$` also
matches just before one trailing newline, so a single final `'\n'` is
tolerated; the remaining text must be 32 to 36 characters of the class. -/
def re_match_db_id (s : List Char) : Bool :=
  let t := if s.getLast? = some '\n' then s.dropLast else s
  decide (32 ≤ t.length) && decide (t.length ≤ 36) && t.all isDbIdChar

/-- The message of the fatal validation error of `main`. -/
def invalidIdMsg (dbid : List Char) : List Char :=
  "NOTION_DATABASE_ID looks invalid or empty: '".toList ++ dbid ++ "'".toList

/-- The message of the fatal error at the end of `resolve_branch`. -/
def resolveFailMsg : List Char :=
  "Could not resolve a valid branch to run git log against.".toList

/-- Embeds `main`: validate the collection identifier, resolve the branch,
collect commits, render and publish.  The window's ISO-rendered bounds and
the strftime-rendered title and date string are taken as inputs, since no
claim depends on the calendar rendering the script performs on the window
returned by `jst_midnight_range_of_yesterday`.  The first component is the
ordered trace of external calls performed. -/
def main_model (dbid target sinceIso untilIso title dateStr repo : List Char)
    (w : GitWorld) (nw : NotionWorld) :
    List Effect × Except (List Char) Nat :=
  if re_match_db_id dbid then
    match resolve_branch target w with
    | (t1, none) => (t1, Except.error resolveFailMsg)
    | (t1, some branch) =>
      match collect_commits_t w branch sinceIso untilIso with
      | (t2, Except.error e) => (t1 ++ t2, Except.error e)
      | (t2, Except.ok commits) =>
        match main_publish w nw dbid title dateStr repo commits with
        | (t3, r3) => (t1 ++ t2 ++ t3, r3)
  else ([], Except.error (invalidIdMsg dbid))

/-- There is an entry carrying the given payload in the properties dict. -/
def hasEntryWithValue (props : List (List Char × PropValue))
    (v : PropValue) : Prop :=
  ∃ k, (k, v) ∈ props

/-- Some schema column's name matches one of the candidate names
case-insensitively. -/
def schemaHasMatch (schema : List (List Char × List Char))
    (cands : List (List Char)) : Prop :=
  ∃ p ∈ schema, ∃ c ∈ cands, lowerChars p.1 = lowerChars c

/-- A concrete schema with a title column, an exact-match date column and
a case-insensitive commit-count column, used to witness
`c8_optional_fields_iff_match`. -/
def sampleSchema : List (List Char × List Char) :=
  [("Name".toList, "title".toList), ("date".toList, "date".toList),
   ("Commits".toList, "number".toList)]

theorem foldl_appendRow_filterMap {α β : Type} (f : α → Option β) :
    ∀ (l : List α) (acc : List β),
      l.foldl (fun a x => appendRow a (f x)) acc = acc ++ l.filterMap f := by
  intro l
  induction l with
  | nil => intro acc; simp
  | cons x xs ih =>
    intro acc
    rw [List.foldl_cons, ih]
    cases h : f x <;> simp [appendRow, h]

theorem foldl_append_filter {α : Type} (p : α → Bool) :
    ∀ (l : List α) (acc : List α),
      l.foldl (fun a x => if p x then a ++ [x] else a) acc
        = acc ++ l.filter p := by
  intro l
  induction l with
  | nil => intro acc; simp
  | cons x xs ih =>
    intro acc
    cases h : p x <;> simp [h, ih]

theorem splitOnCharCapped_ne_nil (sep : Char) :
    ∀ (n : Nat) (l : List Char), splitOnCharCapped sep n l ≠ [] := by
  intro n l
  induction l generalizing n with
  | nil => simp [splitOnCharCapped]
  | cons c cs ih =>
    cases n with
    | zero => simp [splitOnCharCapped]
    | succ n =>
      by_cases h : c = sep
      · simp [splitOnCharCapped, h]
      · rcases hr : splitOnCharCapped sep (n + 1) cs with _ | ⟨hd, tl⟩
        · exact absurd hr (ih (n + 1))
        · simp [splitOnCharCapped, h, hr]

theorem splitOnCharCapped_length (sep : Char) :
    ∀ (n : Nat) (l : List Char),
      (splitOnCharCapped sep n l).length = min (n + 1) (l.count sep + 1) := by
  intro n l
  induction l generalizing n with
  | nil => simp [splitOnCharCapped]
  | cons c cs ih =>
    cases n with
    | zero => simp [splitOnCharCapped]
    | succ n =>
      by_cases h : c = sep
      · have := ih n
        simp [splitOnCharCapped, h, List.count_cons, this]
        omega
      · rcases hr : splitOnCharCapped sep (n + 1) cs with _ | ⟨hd, tl⟩
        · exact absurd hr (splitOnCharCapped_ne_nil sep (n + 1) cs)
        · have := ih (n + 1)
          rw [hr] at this
          simp at this
          simp [splitOnCharCapped, h, hr, List.count_cons, this]

theorem commitRowSpec_isSome_iff (line : List Char) :
    (commitRowSpec line).isSome ↔ 4 ≤ line.count '|' := by
  have hlen := splitOnCharCapped_length '|' 4 line
  rcases h : splitOnCharCapped '|' 4 line with
    _ | ⟨a, _ | ⟨b, _ | ⟨c, _ | ⟨d, _ | ⟨e, _ | ⟨f, rest⟩⟩⟩⟩⟩⟩ <;>
    rw [h] at hlen <;> simp at hlen <;> simp [commitRowSpec, h] <;> omega

/-- C1 counterexample: the claim says a log line with more than four `|`
delimiters is dropped; in fact `split("|", 4)` caps the split at four, so
the line `a|b|c|d|e|f` is retained, the surplus delimiter being absorbed
into the fifth (full-id) field. -/
theorem c1_counterexample_surplus_delimiters_retained :
    collect_commits_parse "a|b|c|d|e|f".toList =
      [⟨"a".toList, "b".toList, "c".toList, "d".toList, "e|f".toList⟩] ∧
    collect_commits_parse "a|b|c|d|e|f".toList ≠ [] := by
  constructor
  · decide
  · decide

/-- C1 amended: the commit parser never raises and retains exactly the log
lines containing at least four `|` delimiters — those the 4-capped split
cuts into exactly five fields — mapping each, in order, to a Commit record
with fields short id, author, date, subject, full id, where the fifth field
absorbs any delimiters beyond the fourth; lines with fewer than four
delimiters are dropped. -/
theorem c1_commit_parse_capped_split (out : List Char) :
    collect_commits_parse out = (splitlines out).filterMap commitRowSpec ∧
    ∀ line : List Char, (commitRowSpec line).isSome ↔ 4 ≤ line.count '|' := by
  constructor
  · have hbody :
        (fun (commits : List Commit) (line : List Char) =>
          match splitOnCharCapped '|' 4 line with
          | [short, author, dateIso, subject, full] =>
            commits ++ [⟨short, author, dateIso, subject, full⟩]
          | _ => commits)
        = (fun (commits : List Commit) (line : List Char) =>
            appendRow commits (commitRowSpec line)) := by
      funext commits line
      rcases h : splitOnCharCapped '|' 4 line with
        _ | ⟨a, _ | ⟨b, _ | ⟨c, _ | ⟨d, _ | ⟨e, _ | ⟨f, rest⟩⟩⟩⟩⟩⟩ <;>
        simp [commitRowSpec, appendRow, h]
    cases out with
    | nil => decide
    | cons a as =>
      unfold collect_commits_parse
      rw [hbody, foldl_appendRow_filterMap commitRowSpec (splitlines (a :: as)) []]
      simp
  · exact commitRowSpec_isSome_iff

/-- C9: the numstat parser is total and retains exactly the lines that
split into three tab-separated columns, in order, passing the added and
deleted columns through unmodified; in particular a binary file's `-`
sentinel is preserved, as the concrete instance shows. -/
theorem c9_numstat_parse_characterization (out : List Char) :
    collect_numstat_parse out = (splitlines out).filterMap numstatRowSpec ∧
    collect_numstat_parse "-\t-\tassets/logo.png".toList =
      [⟨"assets/logo.png".toList, "-".toList, "-".toList⟩] := by
  constructor
  · have hbody :
        (fun (files : List FileChange) (line : List Char) =>
          match splitOnCharFull '\t' line with
          | [add, delete, path] => files ++ [⟨path, add, delete⟩]
          | _ => files)
        = (fun (files : List FileChange) (line : List Char) =>
            appendRow files (numstatRowSpec line)) := by
      funext files line
      rcases h : splitOnCharFull '\t' line with
        _ | ⟨a, _ | ⟨b, _ | ⟨c, _ | ⟨d, rest⟩⟩⟩⟩ <;>
        simp [numstatRowSpec, appendRow, h]
    unfold collect_numstat_parse
    rw [hbody, foldl_appendRow_filterMap numstatRowSpec (splitlines out) []]
    simp
  · decide

/-- C2 counterexample: on a patch with two hunks and four changed lines,
`collect_patch` keeps all four changed lines (more than the claimed cap of
three) and both hunk-header lines (more than one). -/
theorem c2_counterexample_no_truncation :
    ((collect_patch_keep "@@ -1 +1 @@\n+a\n+b\n@@ -7 +7 @@\n+c\n+d".toList).filter
        isChangedLine).length = 4 ∧
    ((collect_patch_keep "@@ -1 +1 @@\n+a\n+b\n@@ -7 +7 @@\n+c\n+d".toList).filter
        isHunkHeaderLine).length = 2 := by
  constructor
  · decide
  · decide

/-- C2 amended: `collect_patch` implements the full-patch strategy with no
per-commit truncation: it keeps every hunk-header line and every
added/removed line except the `+++`/`---` file headers — all of them, with
no cap on changed lines and no cap on hunk headers — and joins them with
newlines (size limiting instead happens at publishing time via 1800-char
chunking). -/
theorem c2_collect_patch_keeps_all (out : List Char) :
    collect_patch_keep out =
      (splitlines out).filter
        (fun line => isHunkHeaderLine line || isChangedLine line) ∧
    collect_patch out =
      joinNL ((splitlines out).filter
        (fun line => isHunkHeaderLine line || isChangedLine line)) := by
  have hkeep : collect_patch_keep out =
      (splitlines out).filter
        (fun line => isHunkHeaderLine line || isChangedLine line) := by
    have hbody :
        (fun (keep : List (List Char)) (line : List Char) =>
          if startsWithSeq ['@', '@'] line then keep ++ [line]
          else if startsWithSeq ['+'] line ||
              startsWithSeq ['-'] line then
            if startsWithSeq ['+', '+', '+'] line ||
                startsWithSeq ['-', '-', '-'] line then keep
            else keep ++ [line]
          else keep)
        = (fun (keep : List (List Char)) (line : List Char) =>
            if isHunkHeaderLine line || isChangedLine line then keep ++ [line]
            else keep) := by
      funext keep line
      simp only [isHunkHeaderLine, isChangedLine]
      by_cases h1 : startsWithSeq ['@', '@'] line = true <;>
        by_cases h2 : startsWithSeq ['+'] line = true <;>
        by_cases h3 : startsWithSeq ['-'] line = true <;>
        by_cases h4 : startsWithSeq ['+', '+', '+'] line = true <;>
        by_cases h5 : startsWithSeq ['-', '-', '-'] line = true <;>
        simp [h1, h2, h3, h4, h5]
    unfold collect_patch_keep
    rw [hbody, foldl_append_filter _ (splitlines out) []]
    simp
  exact ⟨hkeep, by rw [collect_patch, hkeep]⟩

theorem chunk_text_join_aux (text : List Char) :
    ∀ k : Nat,
      ((List.range k).map (fun i => (text.drop (i * 1800)).take 1800)).flatten
        = text.take (k * 1800) := by
  intro k
  induction k with
  | zero => simp
  | succ k ih =>
    rw [List.range_succ, List.map_append, List.flatten_append, ih]
    simp only [List.map_cons, List.map_nil, List.flatten_cons,
      List.flatten_nil, List.append_nil]
    rw [Nat.succ_mul, List.take_add]

/-- C3: `chunk_text` at the script's chunk size 1800 yields exactly
`ceil(L / 1800)` blocks, each of length at most 1800; the block at index
`i` is exactly the slice of the input starting at offset `1800 * i` (so
the blocks are ordered, contiguous and non-overlapping), and their
in-order concatenation is the original text. -/
theorem c3_chunk_text_partitions (text : List Char) :
    (chunk_text text 1800).length = (text.length + 1799) / 1800 ∧
    (∀ c ∈ chunk_text text 1800, c.length ≤ 1800) ∧
    (chunk_text text 1800).flatten = text ∧
    ∀ i : Nat,
      (chunk_text text 1800).get? i =
        if 1800 * i < text.length then
          some ((text.drop (1800 * i)).take 1800)
        else none := by
  by_cases h : text.isEmpty = true
  · have ht : text = [] := by
      cases text with
      | nil => rfl
      | cons a as => simp at h
    subst ht
    refine ⟨by decide, by simp [chunk_text], by decide, ?_⟩
    intro i
    simp [chunk_text]
  · have hpos : 0 < text.length := by
      cases text with
      | nil => simp at h
      | cons a as => simp
    have hchunks : chunk_text text 1800 =
        (List.range ((text.length + 1800 - 1) / 1800)).map
          (fun i => (text.drop (i * 1800)).take 1800) := by
      unfold chunk_text
      simp [h]
    refine ⟨?_, ?_, ?_, ?_⟩
    · rw [hchunks]
      simp
    · intro c hc
      rw [hchunks] at hc
      simp only [List.mem_map, List.mem_range] at hc
      obtain ⟨i, _, rfl⟩ := hc
      simp [List.length_take]
    · rw [hchunks, chunk_text_join_aux text ((text.length + 1800 - 1) / 1800)]
      have hL : text.length ≤ (text.length + 1800 - 1) / 1800 * 1800 := by
        omega
      exact List.take_of_length_le hL
    · intro i
      rw [hchunks, List.get?_map]
      by_cases hi : i < (text.length + 1800 - 1) / 1800
      · rw [List.get?_range hi]
        have hlt : 1800 * i < text.length := by omega
        simp only [Option.map_some']
        rw [Nat.mul_comm i 1800]
        simp [hlt]
      · have hnone : (List.range ((text.length + 1800 - 1) / 1800)).get? i
            = none := by
          rw [List.get?_eq_none]
          simpa using Nat.le_of_not_lt hi
        rw [hnone]
        have hge : ¬ 1800 * i < text.length := by omega
        simp [hge]

/-- C4: for every input instant, the resolved window ends at midnight of
the current day (time-of-day fields zeroed), starts exactly one calendar
day earlier, spans exactly 24 hours of absolute time (Asia/Tokyo has a
fixed offset, so one calendar day is exactly 24 hours), and contains no
instant of the current day; the function is total and pure. -/
theorem c4_window_spans_yesterday (now t : JSTTime) (h : t.day = now.day) :
    toAbsUsec (jst_midnight_range_of_yesterday now).2
        = toAbsUsec (jst_midnight_range_of_yesterday now).1 + (usecPerDay : Int) ∧
    (jst_midnight_range_of_yesterday now).2 = ⟨now.day, 0⟩ ∧
    (jst_midnight_range_of_yesterday now).1 = ⟨now.day - 1, 0⟩ ∧
    inWindow (jst_midnight_range_of_yesterday now).1
      (jst_midnight_range_of_yesterday now).2 t = false := by
  refine ⟨?_, rfl, rfl, ?_⟩
  · simp [jst_midnight_range_of_yesterday, toAbsUsec]
    ring
  · simp only [jst_midnight_range_of_yesterday, inWindow, toAbsUsec, h,
      usecPerDay, Bool.and_eq_false_iff, decide_eq_false_iff_not, not_le,
      not_lt]
    right
    have : (0 : Int) ≤ (t.usec : Int) := Int.ofNat_nonneg t.usec
    omega

/-- Witness for `c4_window_spans_yesterday` at a concrete instant and a
concrete same-day probe instant. -/
theorem c4_window_spans_yesterday_witness :
    (⟨100, 123⟩ : JSTTime).day = (⟨100, 5⟩ : JSTTime).day ∧
    (toAbsUsec (jst_midnight_range_of_yesterday ⟨100, 5⟩).2
        = toAbsUsec (jst_midnight_range_of_yesterday ⟨100, 5⟩).1
            + (usecPerDay : Int) ∧
      (jst_midnight_range_of_yesterday ⟨100, 5⟩).2 = ⟨(100 : Int), 0⟩ ∧
      (jst_midnight_range_of_yesterday ⟨100, 5⟩).1 = ⟨(100 : Int) - 1, 0⟩ ∧
      inWindow (jst_midnight_range_of_yesterday ⟨100, 5⟩).1
        (jst_midnight_range_of_yesterday ⟨100, 5⟩).2 ⟨100, 123⟩ = false) :=
  ⟨rfl, c4_window_spans_yesterday ⟨100, 5⟩ ⟨100, 123⟩ rfl⟩

/-- C5: when a non-empty branch override is configured and the
remote-tracking reference `origin/{override}` verifies, branch resolution
returns exactly `origin/{override}`, whatever the default-branch pointer
and the current checked-out branch are. -/
theorem c5_override_wins (target : List Char) (w : GitWorld)
    (h1 : target.isEmpty = false)
    (h2 : (w.run (gitCmdVerify (originSlash target))).isSome = true) :
    (resolve_branch target w).2 = some (originSlash target) := by
  obtain ⟨s, hs⟩ := Option.isSome_iff_exists.mp h2
  simp [resolve_branch, h1, hs]

/-- Witness for `c5_override_wins`: a world whose default-branch pointer
names `origin/main` and whose checkout is `develop`, while the override is
`release`; resolution still returns `origin/release`. -/
theorem c5_override_wins_witness :
    ("release".toList.isEmpty = false ∧
      ((GitWorld.mk (fun cmd =>
          if cmd = gitCmdVerify (originSlash "release".toList) then some []
          else if cmd = gitCmdSymbolicRef then some "origin/main".toList
          else if cmd = gitCmdAbbrevRef then some "develop".toList
          else none)).run
        (gitCmdVerify (originSlash "release".toList))).isSome = true) ∧
    (resolve_branch "release".toList
        (GitWorld.mk (fun cmd =>
          if cmd = gitCmdVerify (originSlash "release".toList) then some []
          else if cmd = gitCmdSymbolicRef then some "origin/main".toList
          else if cmd = gitCmdAbbrevRef then some "develop".toList
          else none))).2
      = some (originSlash "release".toList) :=
  ⟨⟨by decide, by decide⟩,
    c5_override_wins _ _ (by decide) (by decide)⟩

/-- C6: with zero collected commits the rendered summary is exactly the
fixed no-commits message (no subprocess is invoked), and the publish step
passes `len([]) = 0` as the page's commit count — its result value on
success is 0 and the page body is the chunked no-commits message. -/
theorem c6_no_commits (w : GitWorld) (nw : NotionWorld)
    (dbid title dateStr repo : List Char) :
    build_markdown_summary_t w ([] : List Commit)
        = ([], Except.ok noCommitsMsg) ∧
    main_publish w nw dbid title dateStr repo [] =
      ((create_notion_page_t nw dbid title dateStr repo 0 noCommitsMsg).1,
       (create_notion_page_t nw dbid title dateStr repo 0 noCommitsMsg).2.map
         (fun _ => 0)) := by
  refine ⟨rfl, ?_⟩
  rcases h : create_notion_page_t nw dbid title dateStr repo 0 noCommitsMsg
    with ⟨t4, r4⟩
  simp [main_publish, build_markdown_summary_t, h]

theorem summary_lines_t_sha_only (w : GitWorld) :
    ∀ (cs1 cs2 : List Commit), cs1.map Commit.sha = cs2.map Commit.sha →
      summary_lines_t w cs1 = summary_lines_t w cs2 := by
  intro cs1
  induction cs1 with
  | nil =>
    intro cs2 h
    cases cs2 with
    | nil => rfl
    | cons y ys => simp at h
  | cons x xs ih =>
    intro cs2 h
    cases cs2 with
    | nil => simp at h
    | cons y ys =>
      simp only [List.map_cons, List.cons.injEq] at h
      obtain ⟨hsha, hrest⟩ := h
      simp only [summary_lines_t]
      rw [hsha, ih ys hrest]

/-- C10: the rendered summary depends only on each commit's full-id field
and on the diff data the world returns for that id: two commit lists with
equal full-id sequences render identically, whatever their authors,
subjects, short ids and dates are. -/
theorem c10_summary_depends_only_on_sha (w : GitWorld)
    (cs1 cs2 : List Commit) (h : cs1.map Commit.sha = cs2.map Commit.sha) :
    build_markdown_summary_t w cs1 = build_markdown_summary_t w cs2 := by
  have hemp : cs1.isEmpty = cs2.isEmpty := by
    cases cs1 <;> cases cs2 <;> simp_all
  unfold build_markdown_summary_t
  rw [summary_lines_t_sha_only w cs1 cs2 h, hemp]

/-- Witness for `c10_summary_depends_only_on_sha`: two single-commit lists
sharing the full id but differing in short id, author, date and subject
render the same body. -/
theorem c10_summary_depends_only_on_sha_witness :
    ([⟨"a1".toList, "Alice".toList, "d1".toList, "s1".toList,
        "deadbeef".toList⟩] : List Commit).map Commit.sha
      = ([⟨"b2".toList, "Bob".toList, "d2".toList, "s2".toList,
            "deadbeef".toList⟩] : List Commit).map Commit.sha ∧
    build_markdown_summary_t (GitWorld.mk (fun _ => none))
        [⟨"a1".toList, "Alice".toList, "d1".toList, "s1".toList,
          "deadbeef".toList⟩]
      = build_markdown_summary_t (GitWorld.mk (fun _ => none))
          [⟨"b2".toList, "Bob".toList, "d2".toList, "s2".toList,
            "deadbeef".toList⟩] :=
  ⟨by decide, c10_summary_depends_only_on_sha _ _ _ (by decide)⟩

theorem resolve_step2_trace_head (w : GitWorld) :
    ∃ rest, (resolve_step2 w).1 = Effect.git gitCmdSymbolicRef :: rest :=
  ⟨(resolve_step2_tail w (w.run gitCmdSymbolicRef)).1, rfl⟩

theorem resolve_branch_trace_head (target : List Char) (w : GitWorld) :
    ∃ rest, (resolve_branch target w).1 =
      Effect.git (if target.isEmpty then gitCmdSymbolicRef
                  else gitCmdVerify (originSlash target)) :: rest := by
  by_cases ht : target.isEmpty = true
  · obtain ⟨rest, hr⟩ := resolve_step2_trace_head w
    refine ⟨rest, ?_⟩
    rw [if_pos ht]
    unfold resolve_branch
    rw [if_pos ht]
    exact hr
  · refine ⟨?_, ?_⟩
    case _ =>
      exact match w.run (gitCmdVerify (originSlash target)) with
      | some _ => []
      | none => (resolve_step2 w).1
    case _ =>
      rw [if_neg ht]
      unfold resolve_branch
      rw [if_neg ht]
      rcases hv : w.run (gitCmdVerify (originSlash target)) with _ | s <;>
        rfl

/-- C7: when the collection identifier fails the
`^[0-9a-fA-F-]{32,36}$` validation, `main` aborts with the validation
error and the trace of external calls is empty — no subprocess invocation
and no HTTP request happens; when it passes, execution proceeds: the first
external call is the first subprocess invocation of branch resolution. -/
theorem c7_validation_gates_external_calls
    (dbid target sinceIso untilIso title dateStr repo : List Char)
    (w : GitWorld) (nw : NotionWorld) :
    (re_match_db_id dbid = false →
      main_model dbid target sinceIso untilIso title dateStr repo w nw
        = ([], Except.error (invalidIdMsg dbid))) ∧
    (re_match_db_id dbid = true →
      (main_model dbid target sinceIso untilIso title dateStr repo w nw).1.head?
        = some (Effect.git (if target.isEmpty then gitCmdSymbolicRef
                            else gitCmdVerify (originSlash target)))) := by
  constructor
  · intro h
    simp [main_model, h]
  · intro h
    obtain ⟨rest, hr⟩ := resolve_branch_trace_head target w
    unfold main_model
    rcases hrb : resolve_branch target w with ⟨t1, r1⟩
    rw [hrb] at hr
    subst hr
    rcases r1 with _ | branch
    · simp [h]
    · rcases hc : collect_commits_t w branch sinceIso untilIso with ⟨t2, r2⟩
      rcases r2 with e | commits
      · simp [h, hc]
      · rcases hp : main_publish w nw dbid title dateStr repo commits
          with ⟨t3, r3⟩
        simp [h, hc, hp]

/-- Witness for `c7_validation_gates_external_calls`: a malformed
identifier aborts with an empty trace, and a well-formed 32-hex identifier
proceeds to the first branch-resolution subprocess call. -/
theorem c7_validation_gates_external_calls_witness :
    (re_match_db_id "nothex!".toList = false ∧
      main_model "nothex!".toList "main".toList [] [] [] [] []
          (GitWorld.mk (fun _ => none)) (NotionWorld.mk none false)
        = ([], Except.error (invalidIdMsg "nothex!".toList))) ∧
    (re_match_db_id "0123456789abcdef0123456789abcdef".toList = true ∧
      (main_model "0123456789abcdef0123456789abcdef".toList "main".toList
          [] [] [] [] [] (GitWorld.mk (fun _ => none))
          (NotionWorld.mk none false)).1.head?
        = some (Effect.git (if "main".toList.isEmpty then gitCmdSymbolicRef
                            else gitCmdVerify (originSlash "main".toList)))) :=
  ⟨⟨by decide,
      (c7_validation_gates_external_calls "nothex!".toList "main".toList
        [] [] [] [] [] (GitWorld.mk (fun _ => none))
        (NotionWorld.mk none false)).1 (by decide)⟩,
    ⟨by decide,
      (c7_validation_gates_external_calls
        "0123456789abcdef0123456789abcdef".toList "main".toList
        [] [] [] [] [] (GitWorld.mk (fun _ => none))
        (NotionWorld.mk none false)).2 (by decide)⟩⟩

theorem lookupDict_dictSet (m : List (List Char × List Char))
    (k : List Char) (v : List Char) (x : List Char) :
    lookupDict (dictSet m k v) x =
      if x = k then some v else lookupDict m x := by
  induction m with
  | nil =>
    by_cases h : x = k
    · subst h; simp [dictSet, lookupDict]
    · simp [dictSet, lookupDict, h, Ne.symm h]
  | cons p ps ih =>
    by_cases hp : p.1 = k
    · by_cases hx : x = k
      · subst hx
        simp [dictSet, hp, lookupDict]
      · have h1 : ¬ k = x := Ne.symm hx
        have h2 : ¬ p.1 = x := by rw [hp]; exact h1
        simp [dictSet, hp, lookupDict, hx, h1, h2]
    · by_cases hpx : p.1 = x
      · have hx : ¬ x = k := fun hh => hp (hpx.trans hh)
        simp [dictSet, hp, lookupDict, hpx, hx]
      · simp [dictSet, hp, lookupDict, hpx, ih]

theorem dictSet_mem_self {α : Type} (m : List (List Char × α))
    (k : List Char) (v : α) : (k, v) ∈ dictSet m k v := by
  induction m with
  | nil => simp [dictSet]
  | cons p ps ih =>
    by_cases hp : p.1 = k
    · simp [dictSet, hp]
    · simp only [dictSet, hp, if_false]
      exact List.mem_cons_of_mem p ih

theorem dictSet_mem_elim {α : Type} {m : List (List Char × α)}
    {k : List Char} {v : α} {q : List Char × α}
    (h : q ∈ dictSet m k v) : q = (k, v) ∨ q ∈ m := by
  induction m with
  | nil => simpa [dictSet] using h
  | cons p ps ih =>
    by_cases hp : p.1 = k
    · simp only [dictSet, hp, if_true] at h
      rcases List.mem_cons.mp h with h' | h'
      · exact Or.inl h'
      · exact Or.inr (List.mem_cons_of_mem p h')
    · simp only [dictSet, hp, if_false] at h
      rcases List.mem_cons.mp h with h' | h'
      · exact Or.inr (h' ▸ List.mem_cons_self p ps)
      · rcases ih h' with h'' | h''
        · exact Or.inl h''
        · exact Or.inr (List.mem_cons_of_mem p h'')

theorem dictSet_mem_of_ne {α : Type} {m : List (List Char × α)}
    {k k' : List Char} {v v' : α} (hne : k' ≠ k) :
    (k', v') ∈ dictSet m k v ↔ (k', v') ∈ m := by
  induction m with
  | nil =>
    simp only [dictSet, List.mem_singleton, List.not_mem_nil, iff_false]
    intro h
    exact hne (congrArg Prod.fst h)
  | cons p ps ih =>
    by_cases hp : p.1 = k
    · simp only [dictSet, hp, if_true, List.mem_cons]
      constructor
      · intro h
        rcases h with h | h
        · exact absurd (congrArg Prod.fst h) hne
        · exact Or.inr h
      · intro h
        rcases h with h | h
        · exact absurd ((congrArg Prod.fst h).trans hp) hne
        · exact Or.inr h
    · simp only [dictSet, hp, if_false, List.mem_cons, ih]

theorem lowerMapOf_sound_aux :
    ∀ (l acc : List (List Char × List Char)) (x y : List Char),
      lookupDict (l.foldl (fun m p => dictSet m (lowerChars p.1) p.1) acc) x
          = some y →
      lookupDict acc x = some y ∨ ∃ p ∈ l, p.1 = y ∧ lowerChars y = x := by
  intro l
  induction l with
  | nil => intro acc x y h; exact Or.inl h
  | cons p ps ih =>
    intro acc x y h
    rw [List.foldl_cons] at h
    rcases ih _ x y h with h' | ⟨q, hq, h1, h2⟩
    · rw [lookupDict_dictSet] at h'
      by_cases hx : x = lowerChars p.1
      · rw [if_pos hx] at h'
        injection h' with h''
        exact Or.inr ⟨p, List.mem_cons_self p ps, h'', by rw [← h'']; exact hx.symm⟩
      · rw [if_neg hx] at h'
        exact Or.inl h'
    · exact Or.inr ⟨q, List.mem_cons_of_mem p hq, h1, h2⟩

theorem lowerMapOf_sound (props : List (List Char × List Char))
    (x y : List Char) (h : lookupDict (lowerMapOf props) x = some y) :
    ∃ p ∈ props, p.1 = y ∧ lowerChars y = x := by
  rcases lowerMapOf_sound_aux props [] x y h with h' | h'
  · simp [lookupDict] at h'
  · exact h'

theorem lowerMapOf_complete_aux :
    ∀ (l acc : List (List Char × List Char)) (x : List Char),
      ((∃ y, lookupDict acc x = some y) ∨ ∃ p ∈ l, lowerChars p.1 = x) →
      ∃ y, lookupDict (l.foldl (fun m p => dictSet m (lowerChars p.1) p.1) acc) x
        = some y := by
  intro l
  induction l with
  | nil =>
    intro acc x h
    rcases h with h | ⟨p, hp, _⟩
    · exact h
    · exact absurd hp (List.not_mem_nil p)
  | cons p ps ih =>
    intro acc x h
    rw [List.foldl_cons]
    apply ih
    rcases h with ⟨y, hy⟩ | ⟨q, hq, hx⟩
    · left
      rw [lookupDict_dictSet]
      by_cases hx : x = lowerChars p.1
      · exact ⟨p.1, by rw [if_pos hx]⟩
      · exact ⟨y, by rw [if_neg hx]; exact hy⟩
    · rcases List.mem_cons.mp hq with h' | h'
      · left
        subst h'
        rw [lookupDict_dictSet]
        exact ⟨q.1, by rw [if_pos hx.symm]⟩
      · exact Or.inr ⟨q, h', hx⟩

theorem find_prop_exact_sound (props : List (List Char × List Char)) :
    ∀ (cands : List (List Char)) (c : List Char),
      find_prop_exact props cands = some c →
      c ∈ cands ∧ ∃ p ∈ props, p.1 = c := by
  intro cands
  induction cands with
  | nil => intro c h; simp [find_prop_exact] at h
  | cons c0 cs ih =>
    intro c h
    by_cases hk : hasKey props c0 = true
    · simp only [find_prop_exact, hk, if_true] at h
      injection h with h'
      subst h'
      refine ⟨List.mem_cons_self _ _, ?_⟩
      simpa [hasKey, List.any_eq_true] using hk
    · simp only [find_prop_exact, hk, if_false] at h
      obtain ⟨hmem, hp⟩ := ih c h
      exact ⟨List.mem_cons_of_mem c0 hmem, hp⟩

theorem find_prop_lower_sound (m : List (List Char × List Char)) :
    ∀ (cands : List (List Char)) (k : List Char),
      find_prop_lower m cands = some k →
      k.isEmpty = false ∧
        ∃ c ∈ cands, lookupDict m (lowerChars c) = some k := by
  intro cands
  induction cands with
  | nil => intro k h; simp [find_prop_lower] at h
  | cons c0 cs ih =>
    intro k h
    rcases hl : lookupDict m (lowerChars c0) with _ | k0
    · simp only [find_prop_lower, hl] at h
      obtain ⟨hne, c, hc, hc'⟩ := ih k h
      exact ⟨hne, c, List.mem_cons_of_mem c0 hc, hc'⟩
    · simp only [find_prop_lower, hl] at h
      by_cases he : k0.isEmpty = true
      · rw [if_pos he] at h
        obtain ⟨hne, c, hc, hc'⟩ := ih k h
        exact ⟨hne, c, List.mem_cons_of_mem c0 hc, hc'⟩
      · rw [if_neg he] at h
        injection h with h'
        subst h'
        exact ⟨Bool.not_eq_true _ ▸ (by simpa using he), c0,
          List.mem_cons_self c0 cs, hl⟩

theorem find_prop_lower_none (m : List (List Char × List Char)) :
    ∀ (cands : List (List Char)),
      find_prop_lower m cands = none →
      ∀ c ∈ cands, ∀ k, lookupDict m (lowerChars c) = some k →
        k.isEmpty = true := by
  intro cands
  induction cands with
  | nil => intro _ c hc; exact absurd hc (List.not_mem_nil c)
  | cons c0 cs ih =>
    intro h c hc k hk
    rcases hl : lookupDict m (lowerChars c0) with _ | k0
    · simp only [find_prop_lower, hl] at h
      rcases List.mem_cons.mp hc with h' | h'
      · subst h'
        rw [hl] at hk
        exact absurd hk (by simp)
      · exact ih h c h' k hk
    · simp only [find_prop_lower, hl] at h
      by_cases he : k0.isEmpty = true
      · rw [if_pos he] at h
        rcases List.mem_cons.mp hc with h' | h'
        · subst h'
          rw [hl] at hk
          injection hk with hk'
          subst hk'
          exact he
        · exact ih h c h' k hk
      · rw [if_neg he] at h
        exact absurd h (by simp)

theorem find_prop_sound (schema : List (List Char × List Char))
    (cands : List (List Char)) (h : find_prop schema cands ≠ []) :
    (∃ p ∈ schema, p.1 = find_prop schema cands) ∧
    (∃ c ∈ cands, lowerChars (find_prop schema cands) = lowerChars c) := by
  rcases he : find_prop_exact schema cands with _ | c
  · rcases hl : find_prop_lower (lowerMapOf schema) cands with _ | k
    · exact absurd (by simp [find_prop, he, hl]) h
    · have hres : find_prop schema cands = k := by simp [find_prop, he, hl]
      rw [hres]
      obtain ⟨_, c, hc, hlook⟩ := find_prop_lower_sound _ cands k hl
      obtain ⟨p, hp, hp1, hp2⟩ := lowerMapOf_sound schema _ k hlook
      exact ⟨⟨p, hp, hp1⟩, ⟨c, hc, hp2⟩⟩
  · have hres : find_prop schema cands = c := by simp [find_prop, he]
    rw [hres]
    obtain ⟨hmem, hp⟩ := find_prop_exact_sound schema cands c he
    exact ⟨hp, ⟨c, hmem, rfl⟩⟩

theorem find_prop_ne_nil_of_match (schema : List (List Char × List Char))
    (cands : List (List Char)) (hcands : ∀ c ∈ cands, c ≠ [])
    (h : ∃ p ∈ schema, ∃ c ∈ cands, lowerChars p.1 = lowerChars c) :
    find_prop schema cands ≠ [] := by
  obtain ⟨p, hp, c, hc, hlow⟩ := h
  rcases he : find_prop_exact schema cands with _ | c0
  · obtain ⟨y, hy⟩ :
        ∃ y, lookupDict (lowerMapOf schema) (lowerChars c) = some y :=
      lowerMapOf_complete_aux schema [] (lowerChars c) (Or.inr ⟨p, hp, hlow⟩)
    have hyne : y ≠ [] := by
      obtain ⟨q, _, _, hq2⟩ := lowerMapOf_sound schema _ y hy
      have hlen : y.length = c.length := by
        have := congrArg List.length hq2
        simpa [lowerChars] using this
      intro hynil
      apply hcands c hc
      rw [hynil] at hlen
      exact List.eq_nil_of_length_eq_zero hlen.symm
    rcases hl : find_prop_lower (lowerMapOf schema) cands with _ | k
    · exfalso
      apply hyne
      have := find_prop_lower_none _ cands hl c hc y hy
      simpa [List.isEmpty_iff] using this
    · have h1 := (find_prop_lower_sound _ cands k hl).1
      have hres : find_prop schema cands = k := by simp [find_prop, he, hl]
      rw [hres]
      intro hk
      rw [hk] at h1
      simp at h1
  · have hres : find_prop schema cands = c0 := by simp [find_prop, he]
    rw [hres]
    exact hcands c0 (find_prop_exact_sound schema cands c0 he).1

theorem dateCands_ne_nil : ∀ c ∈ dateCands, c ≠ [] := by decide

theorem repoCands_ne_nil : ∀ c ∈ repoCands, c ≠ [] := by decide

theorem countCands_ne_nil : ∀ c ∈ countCands, c ≠ [] := by decide

theorem cands_lower_date_repo :
    ∀ c ∈ dateCands, ∀ c' ∈ repoCands, lowerChars c ≠ lowerChars c' := by
  decide

theorem cands_lower_date_count :
    ∀ c ∈ dateCands, ∀ c' ∈ countCands, lowerChars c ≠ lowerChars c' := by
  decide

theorem cands_lower_repo_count :
    ∀ c ∈ repoCands, ∀ c' ∈ countCands, lowerChars c ≠ lowerChars c' := by
  decide

theorem find_prop_ne_of_disjoint (schema : List (List Char × List Char))
    (cands cands' : List (List Char))
    (hdisj : ∀ c ∈ cands, ∀ c' ∈ cands', lowerChars c ≠ lowerChars c')
    (h : find_prop schema cands ≠ []) (h' : find_prop schema cands' ≠ []) :
    find_prop schema cands ≠ find_prop schema cands' := by
  obtain ⟨_, c, hc, hlc⟩ := find_prop_sound schema cands h
  obtain ⟨_, c', hc', hlc'⟩ := find_prop_sound schema cands' h'
  intro heq
  apply hdisj c hc c' hc'
  rw [← hlc, ← hlc', heq]

theorem condSet_mem_preserve {m : List (List Char × PropValue)}
    {k' : List Char} {v' : PropValue} (k : List Char) (v : PropValue)
    (h : (k', v') ∈ m) (hne : k' ≠ k ∨ k = []) :
    (k', v') ∈ condSet m k v := by
  by_cases hk : k.isEmpty = true
  · simpa [condSet, hk] using h
  · rcases hne with hne | hne
    · rw [condSet, if_neg hk]
      exact (dictSet_mem_of_ne hne).mpr h
    · rw [hne] at hk
      simp at hk

theorem condSet_mem_elim {m : List (List Char × PropValue)}
    {k' : List Char} {v' : PropValue} {k : List Char} {v : PropValue}
    (h : (k', v') ∈ condSet m k v) :
    (k' = k ∧ v' = v ∧ k ≠ []) ∨ (k', v') ∈ m := by
  by_cases hk : k.isEmpty = true
  · rw [condSet, if_pos hk] at h
    exact Or.inr h
  · rw [condSet, if_neg hk] at h
    rcases dictSet_mem_elim h with h' | h'
    · refine Or.inl ⟨congrArg Prod.fst h', congrArg Prod.snd h', ?_⟩
      intro hknil
      rw [hknil] at hk
      simp at hk
    · exact Or.inr h'

theorem condSet_mem_self {m : List (List Char × PropValue)}
    (k : List Char) (v : PropValue) (hk : k ≠ []) :
    (k, v) ∈ condSet m k v := by
  have : k.isEmpty = false := by
    cases k with
    | nil => exact absurd rfl hk
    | cons a as => rfl
  rw [condSet, this]
  simp only [Bool.false_eq_true, if_false]
  exact dictSet_mem_self m k v

theorem props_chain_date_iff (tp d r cnt title dateStr repo : List Char)
    (count : Nat) (hdr : d ≠ [] → r ≠ [] → d ≠ r)
    (hdc : d ≠ [] → cnt ≠ [] → d ≠ cnt) :
    d ≠ [] ↔
      hasEntryWithValue (props_chain tp d r cnt title dateStr repo count)
        (PropValue.dateV dateStr) := by
  constructor
  · intro hd
    refine ⟨d, ?_⟩
    unfold props_chain
    apply condSet_mem_preserve
    · apply condSet_mem_preserve
      · exact condSet_mem_self d _ hd
      · by_cases hr : r = []
        · exact Or.inr hr
        · exact Or.inl (hdr hd hr)
    · by_cases hcnt : cnt = []
      · exact Or.inr hcnt
      · exact Or.inl (hdc hd hcnt)
  · rintro ⟨k, hk⟩
    unfold props_chain at hk
    rcases condSet_mem_elim hk with ⟨_, hv, _⟩ | hk2
    · exact absurd hv (by simp)
    rcases condSet_mem_elim hk2 with ⟨_, hv, _⟩ | hk1
    · exact absurd hv (by simp)
    rcases condSet_mem_elim hk1 with ⟨_, _, hdne⟩ | hk0
    · exact hdne
    · simp at hk0

theorem props_chain_repo_iff (tp d r cnt title dateStr repo : List Char)
    (count : Nat) (_hdr : d ≠ [] → r ≠ [] → d ≠ r)
    (hrc : r ≠ [] → cnt ≠ [] → r ≠ cnt) :
    r ≠ [] ↔
      hasEntryWithValue (props_chain tp d r cnt title dateStr repo count)
        (PropValue.richTextV repo) := by
  constructor
  · intro hr
    refine ⟨r, ?_⟩
    unfold props_chain
    apply condSet_mem_preserve
    · exact condSet_mem_self r _ hr
    · by_cases hcnt : cnt = []
      · exact Or.inr hcnt
      · exact Or.inl (hrc hr hcnt)
  · rintro ⟨k, hk⟩
    unfold props_chain at hk
    rcases condSet_mem_elim hk with ⟨_, hv, _⟩ | hk2
    · exact absurd hv (by simp)
    rcases condSet_mem_elim hk2 with ⟨_, _, hrne⟩ | hk1
    · exact hrne
    rcases condSet_mem_elim hk1 with ⟨_, hv, _⟩ | hk0
    · exact absurd hv (by simp)
    · simp at hk0

theorem props_chain_count_iff (tp d r cnt title dateStr repo : List Char)
    (count : Nat) :
    cnt ≠ [] ↔
      hasEntryWithValue (props_chain tp d r cnt title dateStr repo count)
        (PropValue.numberV count) := by
  constructor
  · intro hcnt
    exact ⟨cnt, condSet_mem_self cnt _ hcnt⟩
  · rintro ⟨k, hk⟩
    unfold props_chain at hk
    rcases condSet_mem_elim hk with ⟨_, _, hcne⟩ | hk2
    · exact hcne
    rcases condSet_mem_elim hk2 with ⟨_, hv, _⟩ | hk1
    · exact absurd hv (by simp)
    rcases condSet_mem_elim hk1 with ⟨_, hv, _⟩ | hk0
    · exact absurd hv (by simp)
    · simp at hk0

theorem props_chain_title_mem (tp d r cnt title dateStr repo : List Char)
    (count : Nat) (hd : d ≠ tp ∨ d = []) (hr : r ≠ tp ∨ r = [])
    (hc : cnt ≠ tp ∨ cnt = []) :
    (tp, PropValue.titleV title) ∈
      props_chain tp d r cnt title dateStr repo count := by
  unfold props_chain
  apply condSet_mem_preserve
  · apply condSet_mem_preserve
    · apply condSet_mem_preserve
      · simp
      · rcases hd with hd | hd
        · exact Or.inl (Ne.symm hd)
        · exact Or.inr hd
    · rcases hr with hr | hr
      · exact Or.inl (Ne.symm hr)
      · exact Or.inr hr
  · rcases hc with hc | hc
    · exact Or.inl (Ne.symm hc)
    · exact Or.inr hc

theorem schemaHasMatch_iff_find_prop_ne_nil
    (schema : List (List Char × List Char)) (cands : List (List Char))
    (hcands : ∀ c ∈ cands, c ≠ []) :
    schemaHasMatch schema cands ↔ find_prop schema cands ≠ [] := by
  constructor
  · exact find_prop_ne_nil_of_match schema cands hcands
  · intro h
    obtain ⟨⟨p, hp, hp1⟩, ⟨c, hc, hlc⟩⟩ := find_prop_sound schema cands h
    exact ⟨p, hp, c, hc, by rw [hp1]; exact hlc⟩

/-- C8 counterexample: on a schema whose single column is named `Date` and
has type `title`, the title detection picks `Date`, but the date
assignment then overwrites the title entry, so the created properties
contain the date payload only — the title property is not set, refuting
the claim's clause that the title property is always set. -/
theorem c8_counterexample_title_overwritten :
    find_title_prop_name [("Date".toList, "title".toList)]
        = some "Date".toList ∧
    notion_properties [("Date".toList, "title".toList)] "T".toList
        "2024-06-01".toList "repo".toList 0
      = some [("Date".toList, PropValue.dateV "2024-06-01".toList)] ∧
    ("Date".toList, PropValue.titleV "T".toList) ∉
      [("Date".toList, PropValue.dateV "2024-06-01".toList)] :=
  ⟨by decide, by decide, by decide⟩

/-- C8 amended: for every schema with a title column, page creation
succeeds in building the properties, and each optional field (date,
repository, commit count) has an entry with its payload exactly when some
schema column matches one of its candidate names case-insensitively —
unmatched optional fields are omitted, never synthesized; the title entry
with the title payload is present provided the title column's name is not
also the name selected for one of the optional fields (otherwise that
later optional assignment overwrites it, as the counterexample shows). -/
theorem c8_optional_fields_iff_match (schema : List (List Char × List Char))
    (title dateStr repo : List Char) (count : Nat) (tp : List Char)
    (ht : find_title_prop_name schema = some tp) :
    ∃ props, notion_properties schema title dateStr repo count = some props ∧
      (schemaHasMatch schema dateCands ↔
        hasEntryWithValue props (PropValue.dateV dateStr)) ∧
      (schemaHasMatch schema repoCands ↔
        hasEntryWithValue props (PropValue.richTextV repo)) ∧
      (schemaHasMatch schema countCands ↔
        hasEntryWithValue props (PropValue.numberV count)) ∧
      ((find_prop schema dateCands ≠ tp ∨ find_prop schema dateCands = []) →
        (find_prop schema repoCands ≠ tp ∨ find_prop schema repoCands = []) →
        (find_prop schema countCands ≠ tp ∨
          find_prop schema countCands = []) →
        (tp, PropValue.titleV title) ∈ props) := by
  refine ⟨props_chain tp (find_prop schema dateCands)
    (find_prop schema repoCands) (find_prop schema countCands)
    title dateStr repo count, ?_, ?_, ?_, ?_, ?_⟩
  · simp [notion_properties, ht]
  · exact (schemaHasMatch_iff_find_prop_ne_nil schema dateCands
      dateCands_ne_nil).trans
      (props_chain_date_iff tp _ _ _ title dateStr repo count
        (find_prop_ne_of_disjoint schema dateCands repoCands
          cands_lower_date_repo)
        (find_prop_ne_of_disjoint schema dateCands countCands
          cands_lower_date_count))
  · exact (schemaHasMatch_iff_find_prop_ne_nil schema repoCands
      repoCands_ne_nil).trans
      (props_chain_repo_iff tp _ _ _ title dateStr repo count
        (find_prop_ne_of_disjoint schema dateCands repoCands
          cands_lower_date_repo)
        (find_prop_ne_of_disjoint schema repoCands countCands
          cands_lower_repo_count))
  · exact (schemaHasMatch_iff_find_prop_ne_nil schema countCands
      countCands_ne_nil).trans
      (props_chain_count_iff tp _ _ _ title dateStr repo count)
  · intro h1 h2 h3
    exact props_chain_title_mem tp _ _ _ title dateStr repo count h1 h2 h3

/-- Witness for `c8_optional_fields_iff_match` at `sampleSchema`. -/
theorem c8_optional_fields_iff_match_witness :
    find_title_prop_name sampleSchema = some "Name".toList ∧
    (∃ props, notion_properties sampleSchema "T".toList "D".toList
        "R".toList 7 = some props ∧
      (schemaHasMatch sampleSchema dateCands ↔
        hasEntryWithValue props (PropValue.dateV "D".toList)) ∧
      (schemaHasMatch sampleSchema repoCands ↔
        hasEntryWithValue props (PropValue.richTextV "R".toList)) ∧
      (schemaHasMatch sampleSchema countCands ↔
        hasEntryWithValue props (PropValue.numberV 7)) ∧
      ((find_prop sampleSchema dateCands ≠ "Name".toList ∨
          find_prop sampleSchema dateCands = []) →
        (find_prop sampleSchema repoCands ≠ "Name".toList ∨
          find_prop sampleSchema repoCands = []) →
        (find_prop sampleSchema countCands ≠ "Name".toList ∨
          find_prop sampleSchema countCands = []) →
        ("Name".toList, PropValue.titleV "T".toList) ∈ props)) :=
  ⟨by decide,
    c8_optional_fields_iff_match sampleSchema "T".toList "D".toList
      "R".toList 7 "Name".toList (by decide)⟩

example : splitlines "a\nb\n".toList = ["a".toList, "b".toList] := by decide

example : splitlines "".toList = [] := by decide

example : splitlines "\n".toList = [[]] := by decide

example : splitOnCharCapped '|' 4 "a|b|c|d|e|f".toList =
    ["a".toList, "b".toList, "c".toList, "d".toList, "e|f".toList] := by decide

example : splitOnCharCapped '|' 4 "".toList = [[]] := by decide

example : splitOnCharFull '\t' "1\t2\tx".toList =
    ["1".toList, "2".toList, "x".toList] := by decide

example : chunk_text "abcde".toList 2 = ["ab".toList, "cd".toList, "e".toList] := by
  decide

end DailyChangelog
